import Mathlib

/-!
Verification of the prompt-builder core: the streaming chat transport
(`ChatStream` / `ChatStreamWithSpinner` in `cmd/prompt-builder/llm.go`),
the reply-completion and code-block-extraction helpers (`slash.go`),
the slash-command dispatcher (`HandleCommandWithClipboard`), the
conversation data structure, and the interactive conversation loop
(`runWithDeps` in `cmd/prompt-builder/main.go`).

Texts are modelled as `List Char` (Go strings, byte/char indexing agrees
on the ASCII patterns the code searches for).  External library calls
(`strings.Contains`, `strings.TrimSpace`, `strings.Index`, ...) are
embedded by their documented contracts as executable functions.
-/

namespace PromptBuilder

/-- Go `unicode.IsSpace` restricted to the ASCII whitespace used by
`strings.TrimSpace`. -/
def isSpaceChar (c : Char) : Bool :=
  c = ' ' || c = '\t' || c = '\n' || c = '\x0b' || c = '\x0c' || c = '\r'

/-- Go `strings.TrimSpace`: drop leading and trailing whitespace. -/
def trimSpace (s : List Char) : List Char :=
  ((s.dropWhile isSpaceChar).reverse.dropWhile isSpaceChar).reverse

/-- Go `strings.Contains s sub`: some index of `s` starts an occurrence
of `sub`. -/
def containsSub (s sub : List Char) : Bool :=
  (List.range (s.length + 1)).any (fun i => sub.isPrefixOf (s.drop i))

/-- Go `strings.Index s sub`: the first index at which `sub` occurs
(`none` for Go's `-1`). -/
def firstIndexOf (s sub : List Char) : Option Nat :=
  (List.range (s.length + 1)).find? (fun i => sub.isPrefixOf (s.drop i))

/-- Go `strings.LastIndex s sub`: the last index at which `sub` occurs
(`none` for Go's `-1`). -/
def lastIndexOf (s sub : List Char) : Option Nat :=
  (List.range (s.length + 1)).reverse.find? (fun i => sub.isPrefixOf (s.drop i))

/-- The triple-backtick fence marker. -/
def marker : List Char := ['`', '`', '`']

/-- `IsComplete` from `slash.go`: the reply contains a fence marker and
its trimmed text does not end with a question mark. -/
def IsComplete (response : List Char) : Bool :=
  let hasCodeBlock := containsSub response marker
  let trimmed := trimSpace response
  let endsWithQuestion := ['?'].isSuffixOf trimmed
  hasCodeBlock && !endsWithQuestion

/-- `ExtractLastCodeBlock` from `slash.go` / `detect.go`: content of the
last fenced block, language-tag line skipped, empty when fewer than two
markers occur. -/
def ExtractLastCodeBlock (text : List Char) : List Char :=
  match lastIndexOf text marker with
  | none => []
  | some lastStart =>
    let beforeLast := text.take lastStart
    match lastIndexOf beforeLast marker with
    | none => []
    | some openStart =>
      let contentStart := openStart + marker.length
      let contentStart :=
        match firstIndexOf ((text.take lastStart).drop contentStart) ['\n'] with
        | some idx => contentStart + idx + 1
        | none => contentStart
      (text.take lastStart).drop contentStart

/-- `IsCommand` from `slash.go`: input starts with a slash. -/
def IsCommand (input : List Char) : Bool :=
  ['/'].isPrefixOf input

/-- `parseCommand` from `slash.go`: trim, require a leading slash, strip
it, lowercase. -/
def parseCommand (input : List Char) : List Char :=
  let trimmed := trimSpace input
  if ['/'].isPrefixOf trimmed then (trimmed.drop 1).map Char.toLower
  else []

/-- The user-facing command errors produced by `HandleCommandWithClipboard`
(`fmt.Errorf` values in `slash.go`). -/
inductive CmdError where
  | noResponse
  | noCodeBlock
  | clipboardNotAvailable
  | unknownCommand (name : List Char)
deriving DecidableEq, Repr

/-- Result of one slash-command dispatch: the `shouldExit` flag, the
returned error, the lines printed to `out`, and the texts handed to the
clipboard sink (attempted writes, in order). -/
structure CmdOutcome where
  shouldExit : Bool
  err : Option CmdError
  printed : List (List Char)
  clipboardWrites : List (List Char)
deriving DecidableEq, Repr

/-- A `ClipboardWriter`: `none` models a nil writer, `some w` a writer
whose `Write` succeeds iff `w text = true`. -/
abbrev Clipboard := Option (List Char → Bool)

def goodbyeMsg : List Char := "Goodbye".toList

def copiedMsg : List Char := "✓ Copied to clipboard".toList

def helpMsg : List Char :=
  ("Commands:\n  /copy   Copy last code block to clipboard and exit\n" ++
   "  /bye    Exit conversation\n  /quit   Exit conversation\n" ++
   "  /exit   Exit conversation\n  /help   Show this help").toList

/-- `HandleCommandWithClipboard` from `slash.go`: the switch over the
parsed command name. -/
def HandleCommandWithClipboard (input lastResponse : List Char)
    (clipboard : Clipboard) : CmdOutcome :=
  let cmd := parseCommand input
  if cmd = "bye".toList ∨ cmd = "quit".toList ∨ cmd = "exit".toList then
    ⟨true, none, [goodbyeMsg], []⟩
  else if cmd = "copy".toList then
    let codeBlock := ExtractLastCodeBlock lastResponse
    if lastResponse = [] then ⟨false, some .noResponse, [], []⟩
    else if codeBlock = [] then ⟨false, some .noCodeBlock, [], []⟩
    else
      match clipboard with
      | none => ⟨false, some .clipboardNotAvailable, [], []⟩
      | some write =>
        if write codeBlock then ⟨true, none, [copiedMsg], [codeBlock]⟩
        else ⟨false, some .clipboardNotAvailable, [], [codeBlock]⟩
  else if cmd = "help".toList then ⟨false, none, [helpMsg], []⟩
  else ⟨false, some (.unknownCommand cmd), [], []⟩

/-! ## Conversation (`llm.go`) -/

/-- `Message` from `llm.go`. -/
structure Message where
  role : List Char
  content : List Char
deriving DecidableEq, Repr

def systemRole : List Char := "system".toList
def userRole : List Char := "user".toList
def assistantRole : List Char := "assistant".toList

/-- `NewConversation`: a single system message. -/
def NewConversation (systemPrompt : List Char) : List Message :=
  [⟨systemRole, systemPrompt⟩]

/-- `Conversation.AddUserMessage`. -/
def AddUserMessage (conv : List Message) (content : List Char) : List Message :=
  conv ++ [⟨userRole, content⟩]

/-- `Conversation.AddAssistantMessage`. -/
def AddAssistantMessage (conv : List Message) (content : List Char) : List Message :=
  conv ++ [⟨assistantRole, content⟩]

/-! ## Streaming transport (`ChatStream` in `llm.go`) -/

/-- One element of a chunk's `choices` array. -/
structure ChunkChoice where
  deltaContent : List Char
  finishReason : Option (List Char)
deriving DecidableEq, Repr

/-- `ChatStreamChunk`: the decoded JSON payload of one frame. -/
structure ChatStreamChunk where
  choices : List ChunkChoice
deriving DecidableEq, Repr

/-- Errors `ChatStream` can return after a response was obtained:
non-200 status, a frame that failed to decode, or an error raised by the
caller's per-token callback (returned verbatim in Go; tagged here). -/
inductive StreamError (ε : Type) where
  | httpStatus (status : Nat)
  | parseError (payload : List Char)
  | callbackError (e : ε)
deriving DecidableEq, Repr

def dataPrefix : List Char := ['d', 'a', 't', 'a', ':', ' ']

def doneSentinel : List Char := ['[', 'D', 'O', 'N', 'E', ']']

/-- The body-scanning loop of `ChatStream`: one iteration per scanned
line.  `decode` embeds `json.Unmarshal` into `ChatStreamChunk`
(`none` = unmarshal error); the per-token callback is stateful
(state type `σ`), returning `some e` to abort.  Returns the accumulated
reply (or the error) together with the final callback state. -/
def processLines (decode : List Char → Option ChatStreamChunk)
    (onToken : σ → List Char → σ × Option ε) :
    List (List Char) → List Char → σ → Except (StreamError ε) (List Char) × σ
  | [], acc, st => (.ok acc, st)
  | line :: rest, acc, st =>
    if line = [] then processLines decode onToken rest acc st
    else if dataPrefix.isPrefixOf line then
      let data := line.drop dataPrefix.length
      if data = doneSentinel then (.ok acc, st)
      else
        match decode data with
        | none => (.error (.parseError data), st)
        | some chunk =>
          match chunk.choices with
          | [] => processLines decode onToken rest acc st
          | choice :: _ =>
            if choice.deltaContent = [] then processLines decode onToken rest acc st
            else
              match onToken st choice.deltaContent with
              | (st', some e) => (.error (.callbackError e), st')
              | (st', none) =>
                processLines decode onToken rest (acc ++ choice.deltaContent) st'
    else processLines decode onToken rest acc st

/-- `ChatStream` after the POST: non-200 fails before reading any frame;
a 200 response's body lines are processed by the scan loop. -/
def chatStream (decode : List Char → Option ChatStreamChunk)
    (onToken : σ → List Char → σ × Option ε)
    (status : Nat) (body : List (List Char)) (st : σ) :
    Except (StreamError ε) (List Char) × σ :=
  if status = 200 then processLines decode onToken body [] st
  else (.error (.httpStatus status), st)

/-- A callback that records every token it is handed (in order) and
answers according to `f`, which may depend on the invocation index. -/
def traceCallback (f : Nat → List Char → Option ε) :
    List (List Char) → List Char → List (List Char) × Option ε :=
  fun calls tok => (calls ++ [tok], f calls.length tok)

/-- A `data: `-prefixed frame line carrying payload `p`. -/
def deltaLine (p : List Char) : List Char := dataPrefix ++ p

/-- The `data: [DONE]` line. -/
def doneLine : List Char := dataPrefix ++ doneSentinel

/-- A chunk whose single choice carries content delta `d`. -/
def deltaChunk (d : List Char) : ChatStreamChunk := ⟨[⟨d, none⟩]⟩

/-- Payload `p` decodes to the single-choice chunk with delta `d` and is
not the end sentinel. -/
def DecodesTo (decode : List Char → Option ChatStreamChunk)
    (p d : List Char) : Prop :=
  p ≠ doneSentinel ∧ decode p = some (deltaChunk d)

/-! ## Spinner and `ChatStreamWithSpinner` (`llm.go`) -/

/-- The one observable bit of `Spinner` state: whether `stopCh` has been
closed.  `Spinner.Stop` closes it at most once; the close makes the
background task erase the status line. -/
structure SpinnerState where
  stopChClosed : Bool
deriving DecidableEq, Repr

/-- `Spinner.Stop`: no-op when already stopped, otherwise close the
channel.  The returned flag records whether this call performed the
stop/erase. -/
def spinnerStop (s : SpinnerState) : SpinnerState × Bool :=
  if s.stopChClosed then (s, false) else (⟨true⟩, true)

/-- State threaded through `ChatStreamWithSpinner`'s wrapped callback:
the `sync.Once` flag, the spinner (absent when not a TTY), a count of
stop/erase actions actually performed, and the inner callback state. -/
structure WrapState (σ : Type) where
  onceDone : Bool
  spinner : Option SpinnerState
  erases : Nat
  inner : σ
deriving Repr

/-- The wrapped callback of `ChatStreamWithSpinner`: `once.Do` stops the
spinner (if present), then the caller's callback runs. -/
def wrappedCallback (onToken : σ → List Char → σ × Option ε) :
    WrapState σ → List Char → WrapState σ × Option ε := fun w tok =>
  let w1 :=
    if w.onceDone then w
    else
      match w.spinner with
      | none => { w with onceDone := true }
      | some sp =>
        let r := spinnerStop sp
        { w with onceDone := true, spinner := some r.1,
                 erases := w.erases + (if r.2 then 1 else 0) }
  let r := onToken w1.inner tok
  ({ w1 with inner := r.1 }, r.2)

/-- Initial wrap state: the once not fired, a freshly started spinner
iff `tty`. -/
def initialWrapState (tty : Bool) (st : σ) : WrapState σ :=
  { onceDone := false,
    spinner := if tty then some ⟨false⟩ else none,
    erases := 0,
    inner := st }

/-- `ChatStreamWithSpinner`: run `chatStream` with the wrapped
callback. -/
def chatStreamWithSpinner (decode : List Char → Option ChatStreamChunk)
    (onToken : σ → List Char → σ × Option ε)
    (tty : Bool) (status : Nat) (body : List (List Char)) (st : σ) :
    Except (StreamError ε) (List Char) × WrapState σ :=
  chatStream decode (wrappedCallback onToken) status body (initialWrapState tty st)

/-! ## Interactive conversation loop (`runWithDeps` in
`cmd/prompt-builder/main.go`) -/

/-- Outcome of the inner input loop for one turn: the run returns
(`shouldExit`), stdin is exhausted (read error), or a non-command input
is appended and the loop breaks out to call the LLM again. -/
inductive InnerResult where
  | exitLoop
  | inputExhausted
  | send (conv : List Message) (restInputs : List (List Char))
deriving DecidableEq, Repr

/-- The inner input loop (interactive branch): read a line, trim it; a
slash command is dispatched (exit or stay in the input loop, issuing no
backend request); anything else becomes the next user message. -/
def innerInputLoop (clipboard : Clipboard) (response : List Char)
    (conv : List Message) : List (List Char) → InnerResult
  | [] => .inputExhausted
  | input :: rest =>
    let u := trimSpace input
    if IsCommand u then
      if (HandleCommandWithClipboard u response clipboard).shouldExit then .exitLoop
      else innerInputLoop clipboard response conv rest
    else .send (AddUserMessage conv u) rest

/-- How an interactive run ends, with the number of backend chat
requests it made. -/
inductive RunResult where
  | finished (requests : Nat)
  | inputError (requests : Nat)
  | responsesExhausted (requests : Nat)
deriving DecidableEq, Repr

/-- The outer conversation loop of `runWithDeps` (interactive branch),
with the backend abstracted as the list of replies it would stream:
each iteration consumes one reply (one backend request), appends it as
an assistant message, and runs the inner input loop. -/
def conversationLoop (clipboard : Clipboard) :
    List (List Char) → List (List Char) → List Message → Nat → RunResult
  | [], _, _, n => .responsesExhausted n
  | resp :: rs, inputs, conv, n =>
    let conv1 := AddAssistantMessage conv resp
    match innerInputLoop clipboard resp conv1 inputs with
    | .exitLoop => .finished (n + 1)
    | .inputExhausted => .inputError (n + 1)
    | .send conv2 rest => conversationLoop clipboard rs rest conv2 (n + 1)

/-- The five recognized command names. -/
def knownCommands : List (List Char) :=
  ["bye".toList, "quit".toList, "exit".toList, "copy".toList, "help".toList]

/-! ## Spec-side notions used to state the claims -/

/-- An occurrence of the fence marker starts at index `i` of `s`. -/
def markerAt (s : List Char) (i : Nat) : Prop :=
  marker.isPrefixOf (s.drop i) = true

/-- Modelled from the spec's glossary: a fenced code block is a run of
text delimited by matching triple-backtick markers, i.e. two marker
occurrences, the closing one starting at or after the end of the
opening one. -/
def specHasFencedBlock (s : List Char) : Prop :=
  ∃ i j, i + 3 ≤ j ∧ markerAt s i ∧ markerAt s j

/-- All indices of `s` at which the fence marker occurs. -/
def markerPositions (s : List Char) : List Nat :=
  (List.range (s.length + 1)).filter (fun i => marker.isPrefixOf (s.drop i))

/-- Head of the conversation invariant: the message list is non-empty
and its first message has role `system`. -/
def convInv (c : List Message) : Prop :=
  ∃ m, c.head? = some m ∧ m.role = systemRole

/-! ## Helper lemmas -/

lemma markerAt_add_three_le (s : List Char) (j : Nat) (h : markerAt s j) :
    j + 3 ≤ s.length := by
  have hpre := List.isPrefixOf_iff_prefix.mp h
  have hlen : marker.length ≤ (s.drop j).length := hpre.length_le
  have hm3 : marker.length = 3 := rfl
  rw [hm3, List.length_drop] at hlen
  omega

lemma two_le_length_of_mem_ne {α : Type} {l : List α} {a b : α}
    (ha : a ∈ l) (hb : b ∈ l) (hab : a ≠ b) : 2 ≤ l.length := by
  match l with
  | [] => cases ha
  | [x] =>
    simp only [List.mem_singleton] at ha hb
    exact absurd (ha.trans hb.symm) hab
  | x :: y :: t => simp only [List.length_cons]; omega

lemma containsSub_iff (s sub : List Char) :
    containsSub s sub = true ↔ ∃ i, sub.isPrefixOf (s.drop i) = true := by
  unfold containsSub
  rw [List.any_eq_true]
  constructor
  · rintro ⟨i, _, hp⟩
    exact ⟨i, hp⟩
  · rintro ⟨i, hp⟩
    by_cases hi : i ≤ s.length
    · exact ⟨i, List.mem_range.mpr (by omega), hp⟩
    · have hnil : s.drop i = [] := List.drop_eq_nil_of_le (by omega)
      rw [hnil] at hp
      have hsub : sub = [] := List.prefix_nil.mp (List.isPrefixOf_iff_prefix.mp hp)
      refine ⟨0, List.mem_range.mpr (by omega), ?_⟩
      rw [hsub]
      exact List.isPrefixOf_iff_prefix.mpr List.nil_prefix

lemma isSuffixOf_singleton_iff (t : List Char) (c : Char) :
    ([c].isSuffixOf t = true) ↔ t.getLast? = some c := by
  rw [List.isSuffixOf_iff_suffix, List.getLast?_eq_some_iff]
  constructor
  · rintro ⟨pre, hpre⟩
    exact ⟨pre, hpre.symm⟩
  · rintro ⟨pre, hpre⟩
    exact ⟨pre, hpre.symm⟩

/-- C9: the conversation message list is never empty, its first message
is always the system message; each `Add*` appends exactly one message of
the corresponding role at the end leaving the existing prefix unchanged,
so every operation preserves the invariant. -/
theorem conversation_invariant (sys u a : List Char) (c : List Message) :
    convInv (NewConversation sys) ∧
    (NewConversation sys).head? = some ⟨systemRole, sys⟩ ∧
    (AddUserMessage c u).take c.length = c ∧
    (AddUserMessage c u).length = c.length + 1 ∧
    (AddUserMessage c u).getLast? = some ⟨userRole, u⟩ ∧
    (AddAssistantMessage c a).take c.length = c ∧
    (AddAssistantMessage c a).length = c.length + 1 ∧
    (AddAssistantMessage c a).getLast? = some ⟨assistantRole, a⟩ ∧
    (convInv c → convInv (AddUserMessage c u) ∧ convInv (AddAssistantMessage c a)) := by
  refine ⟨⟨⟨systemRole, sys⟩, rfl, rfl⟩, rfl, List.take_left _ _, by
    simp [AddUserMessage], List.getLast?_concat _, List.take_left _ _, by
    simp [AddAssistantMessage], List.getLast?_concat _, ?_⟩
  rintro ⟨m, hm, hrole⟩
  match c, hm with
  | x :: t, hm =>
    refine ⟨⟨m, ?_, hrole⟩, ⟨m, ?_, hrole⟩⟩ <;>
      simpa [AddUserMessage, AddAssistantMessage] using hm

/-- C9 witness. -/
theorem conversation_invariant_witness :
    convInv (AddUserMessage (NewConversation "p".toList) "hi".toList) := by
  have h := conversation_invariant "p".toList "hi".toList "r".toList
      (NewConversation "p".toList)
  exact (h.2.2.2.2.2.2.2.2 h.1).1

/-- C3 counterexample: `"x```"` contains a single fence marker, hence no
fenced code block delimited by a matching pair, yet `IsComplete` returns
true — the code only tests for an occurrence of the marker. -/
theorem isComplete_single_marker_counterexample :
    IsComplete ("x```".toList) = true ∧ ¬ specHasFencedBlock ("x```".toList) := by
  refine ⟨by decide, ?_⟩
  rintro ⟨i, j, hij, _, hj⟩
  have hlen := markerAt_add_three_le _ _ hj
  have : ("x```".toList).length = 4 := rfl
  omega

/-- C3 (amended): `IsComplete text` is true iff `text` contains at least
one occurrence of the triple-backtick marker (not necessarily a
delimited pair) and the whitespace-trimmed text does not end with a
question mark. -/
theorem isComplete_iff (s : List Char) :
    IsComplete s = true ↔ (∃ i, markerAt s i) ∧ (trimSpace s).getLast? ≠ some '?' := by
  unfold IsComplete
  rw [Bool.and_eq_true, Bool.not_eq_true', containsSub_iff]
  constructor
  · rintro ⟨⟨i, hi⟩, hq⟩
    refine ⟨⟨i, hi⟩, ?_⟩
    intro hlast
    rw [← isSuffixOf_singleton_iff] at hlast
    rw [hlast] at hq
    cases hq
  · rintro ⟨⟨i, hi⟩, hq⟩
    refine ⟨⟨i, hi⟩, ?_⟩
    by_contra hne
    have : ['?'].isSuffixOf (trimSpace s) = true := by
      cases h : ['?'].isSuffixOf (trimSpace s) with
      | true => rfl
      | false => exact absurd h hne
    exact hq (isSuffixOf_singleton_iff _ _ |>.mp this)

/-- C3 witness: a reply with a fence pair and no trailing question mark
is complete. -/
theorem isComplete_iff_witness :
    IsComplete ("ok\n```\ncode\n```\n".toList) = true :=
  (isComplete_iff ("ok\n```\ncode\n```\n".toList)).mpr
    ⟨⟨3, by unfold markerAt; decide⟩, by decide⟩

lemma lastIndexOf_occurrence {s sub : List Char} {i : Nat}
    (h : lastIndexOf s sub = some i) :
    sub.isPrefixOf (s.drop i) = true ∧ i < s.length + 1 := by
  unfold lastIndexOf at h
  constructor
  · have h1 := List.find?_some h
    simpa using h1
  · have := List.mem_of_find?_eq_some h
    exact List.mem_range.mp (List.mem_reverse.mp this)

/-- C6: `ExtractLastCodeBlock` returns the last fenced block's content,
skipping the language-tag line and preserving trailing newlines, on the
spec's example; and returns the empty string on any text with zero or
one fence-marker occurrences. -/
theorem extractLastCodeBlock_spec :
    ExtractLastCodeBlock ("a\n```\nX\n```\nb\n```\nY\n```\n".toList) = "Y\n".toList ∧
    ∀ s : List Char, (markerPositions s).length ≤ 1 → ExtractLastCodeBlock s = [] := by
  refine ⟨by decide, ?_⟩
  intro s h
  cases hl : lastIndexOf s marker with
  | none => simp [ExtractLastCodeBlock, hl]
  | some i =>
    cases hl2 : lastIndexOf (s.take i) marker with
    | none => simp [ExtractLastCodeBlock, hl, hl2]
    | some j =>
      exfalso
      obtain ⟨hip, hilt⟩ := lastIndexOf_occurrence hl
      obtain ⟨hjp, _⟩ := lastIndexOf_occurrence hl2
      have hjpre : marker <+: (s.take i).drop j := List.isPrefixOf_iff_prefix.mp hjp
      have hjs : marker <+: s.drop j := by
        rw [List.drop_take] at hjpre
        exact hjpre.trans (List.take_prefix _ _)
      have hlen : marker.length ≤ ((s.take i).drop j).length := hjpre.length_le
      have hm3 : marker.length = 3 := rfl
      rw [hm3, List.length_drop, List.length_take] at hlen
      have hji : j + 3 ≤ i := by
        have := min_le_left i s.length
        omega
      have hipos : i ∈ markerPositions s :=
        List.mem_filter.mpr ⟨List.mem_range.mpr hilt, hip⟩
      have hjpos : j ∈ markerPositions s :=
        List.mem_filter.mpr ⟨List.mem_range.mpr (by omega),
          List.isPrefixOf_iff_prefix.mpr hjs⟩
      have := two_le_length_of_mem_ne hipos hjpos (by omega)
      omega

/-- C6 witness: a text with a single marker yields the empty string. -/
theorem extractLastCodeBlock_spec_witness :
    (markerPositions ("x```".toList)).length ≤ 1 ∧
    ExtractLastCodeBlock ("x```".toList) = [] :=
  ⟨by decide, extractLastCodeBlock_spec.2 ("x```".toList) (by decide)⟩

def copyInput : List Char := "/copy".toList

/-- C4: `/copy` fails with the "no response" error when there is no
reply yet, with the "no code block" error when extraction is empty, with
the "clipboard not available" error when the sink is nil or its write
fails (the failed write still receives the block); on success it writes
exactly the extracted block, prints the confirmation, and signals loop
termination. -/
theorem copy_command_spec (lastResponse : List Char) (clipboard : Clipboard) :
    (lastResponse = [] →
      HandleCommandWithClipboard copyInput lastResponse clipboard
        = ⟨false, some .noResponse, [], []⟩) ∧
    (lastResponse ≠ [] → ExtractLastCodeBlock lastResponse = [] →
      HandleCommandWithClipboard copyInput lastResponse clipboard
        = ⟨false, some .noCodeBlock, [], []⟩) ∧
    (lastResponse ≠ [] → ExtractLastCodeBlock lastResponse ≠ [] →
      HandleCommandWithClipboard copyInput lastResponse none
        = ⟨false, some .clipboardNotAvailable, [], []⟩) ∧
    (∀ w : List Char → Bool, lastResponse ≠ [] → ExtractLastCodeBlock lastResponse ≠ [] →
      w (ExtractLastCodeBlock lastResponse) = false →
      HandleCommandWithClipboard copyInput lastResponse (some w)
        = ⟨false, some .clipboardNotAvailable, [], [ExtractLastCodeBlock lastResponse]⟩) ∧
    (∀ w : List Char → Bool, lastResponse ≠ [] → ExtractLastCodeBlock lastResponse ≠ [] →
      w (ExtractLastCodeBlock lastResponse) = true →
      HandleCommandWithClipboard copyInput lastResponse (some w)
        = ⟨true, none, [copiedMsg], [ExtractLastCodeBlock lastResponse]⟩) := by
  have hcmd : parseCommand copyInput = "copy".toList := by decide
  have hno : ¬("copy".toList = "bye".toList ∨ "copy".toList = "quit".toList ∨
      "copy".toList = "exit".toList) := by decide
  clear hno
  refine ⟨?_, ?_, ?_, ?_, ?_⟩
  · intro h0
    simp [HandleCommandWithClipboard, hcmd, h0]
  · intro h0 h1
    simp [HandleCommandWithClipboard, hcmd, h0, h1]
  · intro h0 h1
    simp [HandleCommandWithClipboard, hcmd, h0, h1]
  · intro w h0 h1 h2
    simp [HandleCommandWithClipboard, hcmd, h0, h1, h2]
  · intro w h0 h1 h2
    simp [HandleCommandWithClipboard, hcmd, h0, h1, h2]

/-- C4 witness: a successful copy on a concrete reply with one block. -/
theorem copy_command_spec_witness :
    HandleCommandWithClipboard copyInput ("hi\n```\ncode\n```\n".toList)
      (some (fun _ => true))
      = ⟨true, none, [copiedMsg], ["code\n".toList]⟩ := by
  have h := (copy_command_spec ("hi\n```\ncode\n```\n".toList)
      (some (fun _ => true))).2.2.2.2 (fun _ => true) (by decide) (by decide) rfl
  simpa using h

/-- C2: an interactive input whose trimmed form begins with `/` is
routed to the command dispatcher and the inner input loop either
terminates the run or keeps awaiting input — it never appends the input
as a user message or breaks out to issue another backend request; for
`/help` and for unknown commands the whole conversation run (its request
count included) is the same as if the input had not been typed. -/
theorem command_no_backend_request (clipboard : Clipboard) (resp : List Char)
    (conv : List Message) (input : List Char) (rest : List (List Char)) :
    (IsCommand (trimSpace input) = true →
      innerInputLoop clipboard resp conv (input :: rest)
        = (if (HandleCommandWithClipboard (trimSpace input) resp clipboard).shouldExit
           then InnerResult.exitLoop
           else innerInputLoop clipboard resp conv rest)) ∧
    (parseCommand (trimSpace input) = "help".toList ∨
        parseCommand (trimSpace input) ∉ knownCommands →
      IsCommand (trimSpace input) = true →
      (innerInputLoop clipboard resp conv (input :: rest)
          = innerInputLoop clipboard resp conv rest) ∧
      ∀ responses n, conversationLoop clipboard responses (input :: rest) conv n
          = conversationLoop clipboard responses rest conv n) := by
  have hstep : IsCommand (trimSpace input) = true →
      innerInputLoop clipboard resp conv (input :: rest)
        = (if (HandleCommandWithClipboard (trimSpace input) resp clipboard).shouldExit
           then InnerResult.exitLoop
           else innerInputLoop clipboard resp conv rest) := by
    intro hc
    simp only [innerInputLoop, hc, if_true]
  refine ⟨hstep, ?_⟩
  intro hcmd hc0
  have hnoexit : ∀ r : List Char,
      (HandleCommandWithClipboard (trimSpace input) r clipboard).shouldExit = false := by
    intro r
    rcases hcmd with h | h
    · simp [HandleCommandWithClipboard, h]
    · simp only [knownCommands, List.mem_cons, List.not_mem_nil, or_false] at h
      push_neg at h
      obtain ⟨h1, h2, h3, h4, h5⟩ := h
      have h1' : parseCommand (trimSpace input) ≠ ['b', 'y', 'e'] := h1
      have h2' : parseCommand (trimSpace input) ≠ ['q', 'u', 'i', 't'] := h2
      have h3' : parseCommand (trimSpace input) ≠ ['e', 'x', 'i', 't'] := h3
      have h4' : parseCommand (trimSpace input) ≠ ['c', 'o', 'p', 'y'] := h4
      have h5' : parseCommand (trimSpace input) ≠ ['h', 'e', 'l', 'p'] := h5
      simp [HandleCommandWithClipboard, h1', h2', h3', h4', h5']
  have hinner : ∀ r (c : List Message),
      innerInputLoop clipboard r c (input :: rest) = innerInputLoop clipboard r c rest := by
    intro r c
    simp [innerInputLoop, hc0, hnoexit r]
  refine ⟨hinner resp conv, ?_⟩
  intro responses n
  cases responses with
  | nil => rfl
  | cons r rs =>
    simp only [conversationLoop, hinner]

/-- C2 witness: typing `/help` does not change the run. -/
theorem command_no_backend_request_witness :
    innerInputLoop none "r".toList [] ("/help".toList :: []) = innerInputLoop none "r".toList [] [] ∧
    conversationLoop none ["a".toList] ("/help".toList :: []) [] 0
      = conversationLoop none ["a".toList] [] [] 0 := by
  have h := (command_no_backend_request none "r".toList [] "/help".toList []).2
      (by left; decide) (by decide)
  refine ⟨h.1, ?_⟩
  have h2 := (command_no_backend_request none "r".toList [] "/help".toList []).2
      (by left; decide) (by decide)
  exact h2.2 ["a".toList] 0

/-! ## Transport lemmas -/

lemma processLines_cons_delta {σ ε : Type} (decode : List Char → Option ChatStreamChunk)
    (onToken : σ → List Char → σ × Option ε) {p : List Char} (hp : p ≠ doneSentinel)
    (rest : List (List Char)) (acc : List Char) (st : σ) :
    processLines decode onToken (deltaLine p :: rest) acc st =
      match decode p with
      | none => (.error (.parseError p), st)
      | some chunk =>
        match chunk.choices with
        | [] => processLines decode onToken rest acc st
        | choice :: _ =>
          if choice.deltaContent = [] then processLines decode onToken rest acc st
          else
            match onToken st choice.deltaContent with
            | (st', some e) => (.error (.callbackError e), st')
            | (st', none) => processLines decode onToken rest (acc ++ choice.deltaContent) st' := by
  have hpre : dataPrefix.isPrefixOf (deltaLine p) = true :=
    List.isPrefixOf_iff_prefix.mpr (List.prefix_append _ _)
  have hdrop : (deltaLine p).drop dataPrefix.length = p := List.drop_left _ _
  simp only [processLines]
  rw [if_neg (by simp [deltaLine, dataPrefix]), if_pos hpre, hdrop, if_neg hp]
  rfl

lemma processLines_cons_done {σ ε : Type} (decode : List Char → Option ChatStreamChunk)
    (onToken : σ → List Char → σ × Option ε) (rest : List (List Char))
    (acc : List Char) (st : σ) :
    processLines decode onToken (doneLine :: rest) acc st = (.ok acc, st) := by
  have hpre : dataPrefix.isPrefixOf doneLine = true :=
    List.isPrefixOf_iff_prefix.mpr (List.prefix_append _ _)
  have hdrop : doneLine.drop dataPrefix.length = doneSentinel := List.drop_left _ _
  simp only [processLines]
  rw [if_neg (by simp [doneLine, dataPrefix]), if_pos hpre, hdrop, if_pos rfl]

lemma processLines_cons_delta_some {σ ε : Type} (decode : List Char → Option ChatStreamChunk)
    (onToken : σ → List Char → σ × Option ε) {p b : List Char} (hp : p ≠ doneSentinel)
    (hdec : decode p = some (deltaChunk b)) (rest : List (List Char))
    (acc : List Char) (st : σ) :
    processLines decode onToken (deltaLine p :: rest) acc st =
      (if b = [] then processLines decode onToken rest acc st
       else
         match onToken st b with
         | (st', some e) => (.error (.callbackError e), st')
         | (st', none) => processLines decode onToken rest (acc ++ b) st') := by
  rw [processLines_cons_delta decode onToken hp, hdec]
  rfl

lemma processLines_cons_delta_token {σ ε : Type} (decode : List Char → Option ChatStreamChunk)
    (onToken : σ → List Char → σ × Option ε) {p b : List Char} {st st' : σ}
    (hp : p ≠ doneSentinel) (hdec : decode p = some (deltaChunk b)) (hb : b ≠ [])
    (htok : onToken st b = (st', none)) (rest : List (List Char)) (acc : List Char) :
    processLines decode onToken (deltaLine p :: rest) acc st
      = processLines decode onToken rest (acc ++ b) st' := by
  rw [processLines_cons_delta_some decode onToken hp hdec, if_neg hb, htok]

lemma processLines_cons_delta_token_error {σ ε : Type}
    (decode : List Char → Option ChatStreamChunk)
    (onToken : σ → List Char → σ × Option ε) {p b : List Char} {st st' : σ} {e : ε}
    (hp : p ≠ doneSentinel) (hdec : decode p = some (deltaChunk b)) (hb : b ≠ [])
    (htok : onToken st b = (st', some e)) (rest : List (List Char)) (acc : List Char) :
    processLines decode onToken (deltaLine p :: rest) acc st
      = (.error (.callbackError e), st') := by
  rw [processLines_cons_delta_some decode onToken hp hdec, if_neg hb, htok]

lemma processLines_delta_stream {ε : Type} (decode : List Char → Option ChatStreamChunk)
    (f : Nat → List Char → Option ε) (hf : ∀ i d, f i d = none) :
    ∀ ps ds, List.Forall₂ (DecodesTo decode) ps ds →
      ∀ (acc : List Char) (calls : List (List Char)),
      processLines decode (traceCallback f) (ps.map deltaLine ++ [doneLine]) acc calls
        = (.ok (acc ++ ds.flatten), calls ++ ds.filter (· ≠ [])) := by
  intro ps ds h
  induction h with
  | nil =>
    intro acc calls
    simp only [List.map_nil, List.nil_append]
    rw [processLines_cons_done]
    simp
  | cons h1 _ ih =>
    intro acc calls
    obtain ⟨hne, hdec⟩ := h1
    rename_i b l₁ l₂ _
    simp only [List.map_cons, List.cons_append]
    by_cases hb : b = []
    · subst hb
      rw [processLines_cons_delta_some decode (traceCallback f) hne hdec, if_pos rfl,
        ih acc calls]
      simp
    · have hcb : traceCallback f calls b = (calls ++ [b], none) := by
        simp [traceCallback, hf]
      rw [processLines_cons_delta_token decode (traceCallback f) hne hdec hb hcb,
        ih (acc ++ b) (calls ++ [b])]
      simp [hb, List.filter_cons, List.append_assoc]

/-- C1: on a 200 streaming response whose frames carry deltas `ds`
followed by the `[DONE]` sentinel, `ChatStream` returns the
concatenation of the deltas and a never-failing callback is invoked once
per non-empty delta, in arrival order; empty deltas produce no callback
invocation and no accumulation. -/
theorem chatStream_accumulates_deltas {ε : Type}
    (decode : List Char → Option ChatStreamChunk) (f : Nat → List Char → Option ε)
    (hf : ∀ i d, f i d = none) (ps ds : List (List Char))
    (h : List.Forall₂ (DecodesTo decode) ps ds) :
    chatStream decode (traceCallback f) 200 (ps.map deltaLine ++ [doneLine]) []
      = (.ok ds.flatten, ds.filter (· ≠ [])) := by
  unfold chatStream
  rw [if_pos rfl, processLines_delta_stream decode f hf ps ds h [] []]
  simp

/-- C1 witness: two non-empty deltas accumulate to their concatenation
with one callback invocation each, in order. -/
theorem chatStream_accumulates_deltas_witness :
    chatStream (fun p => some (deltaChunk p))
        (traceCallback (fun _ _ => (none : Option Unit))) 200
        (List.map deltaLine ["Hi".toList, "!".toList] ++ [doneLine]) []
      = (.ok "Hi!".toList, ["Hi".toList, "!".toList]) := by
  have h := chatStream_accumulates_deltas (fun p => some (deltaChunk p))
      (fun _ _ => (none : Option Unit)) (fun _ _ => rfl)
      ["Hi".toList, "!".toList] ["Hi".toList, "!".toList]
      (List.Forall₂.cons ⟨by decide, rfl⟩
        (List.Forall₂.cons ⟨by decide, rfl⟩ List.Forall₂.nil))
  rw [h]
  rfl

lemma processLines_parse_error {ε : Type} (decode : List Char → Option ChatStreamChunk)
    (f : Nat → List Char → Option ε) (hf : ∀ i d, f i d = none)
    {p : List Char} (hd : decode p = none) (hp : p ≠ doneSentinel)
    (post : List (List Char)) :
    ∀ ps ds, List.Forall₂ (DecodesTo decode) ps ds →
      ∀ (acc : List Char) (calls : List (List Char)),
      (processLines decode (traceCallback f) (ps.map deltaLine ++ deltaLine p :: post)
          acc calls).1 = .error (.parseError p) := by
  intro ps ds h
  induction h with
  | nil =>
    intro acc calls
    simp only [List.map_nil, List.nil_append]
    rw [processLines_cons_delta decode (traceCallback f) hp, hd]
  | cons h1 _ ih =>
    intro acc calls
    obtain ⟨hne, hdec⟩ := h1
    rename_i b l₁ l₂ _
    simp only [List.map_cons, List.cons_append]
    by_cases hb : b = []
    · subst hb
      rw [processLines_cons_delta_some decode (traceCallback f) hne hdec, if_pos rfl]
      exact ih acc calls
    · have hcb : traceCallback f calls b = (calls ++ [b], none) := by
        simp [traceCallback, hf]
      rw [processLines_cons_delta_token decode (traceCallback f) hne hdec hb hcb]
      exact ih (acc ++ b) (calls ++ [b])

/-- C7: a `data: `-prefixed frame whose payload fails to decode makes
`ChatStream` fail immediately with a parse error, regardless of how many
well-formed delta frames precede it and of what follows it. -/
theorem chatStream_parse_error {ε : Type} (decode : List Char → Option ChatStreamChunk)
    (f : Nat → List Char → Option ε) (hf : ∀ i d, f i d = none)
    (ps ds : List (List Char)) (h : List.Forall₂ (DecodesTo decode) ps ds)
    (p : List Char) (hd : decode p = none) (hp : p ≠ doneSentinel)
    (post : List (List Char)) :
    (chatStream decode (traceCallback f) 200 (ps.map deltaLine ++ deltaLine p :: post) []).1
      = .error (.parseError p) := by
  unfold chatStream
  rw [if_pos rfl]
  exact processLines_parse_error decode f hf hd hp post ps ds h [] []

/-- C7 witness: a malformed second frame fails the stream even though
more frames follow. -/
theorem chatStream_parse_error_witness :
    (chatStream (fun p => if p = "bad".toList then none else some (deltaChunk p))
        (traceCallback (fun _ _ => (none : Option Unit))) 200
        (List.map deltaLine ["ok".toList] ++ deltaLine "bad".toList :: [doneLine]) []).1
      = .error (.parseError "bad".toList) :=
  chatStream_parse_error (fun p => if p = "bad".toList then none else some (deltaChunk p))
    (fun _ _ => (none : Option Unit)) (fun _ _ => rfl)
    ["ok".toList] ["ok".toList]
    (List.Forall₂.cons ⟨by decide, by decide⟩ List.Forall₂.nil)
    "bad".toList (by decide) (by decide) [doneLine]

/-- C10: a frame that decodes to a chunk with an empty `choices` array
is skipped — no callback, no accumulation, no error — and the remaining
frames are processed as if the frame were absent. -/
theorem empty_choices_frame_skipped {σ ε : Type}
    (decode : List Char → Option ChatStreamChunk)
    (onToken : σ → List Char → σ × Option ε) (p : List Char)
    (hd : decode p = some ⟨[]⟩) (hp : p ≠ doneSentinel)
    (rest : List (List Char)) (acc : List Char) (st : σ) :
    processLines decode onToken (deltaLine p :: rest) acc st
      = processLines decode onToken rest acc st := by
  rw [processLines_cons_delta decode onToken hp, hd]

/-- C10 witness. -/
theorem empty_choices_frame_skipped_witness :
    processLines (fun _ => some ⟨[]⟩)
        (traceCallback (fun _ _ => (none : Option Unit)))
        (deltaLine "x".toList :: [doneLine]) [] []
      = processLines (fun _ => some ⟨[]⟩)
        (traceCallback (fun _ _ => (none : Option Unit))) [doneLine] [] [] :=
  empty_choices_frame_skipped (fun _ => some ⟨[]⟩)
    (traceCallback (fun _ _ => (none : Option Unit))) "x".toList rfl (by decide)
    [doneLine] [] []

/-- A callback answer function that fails (with `e`) exactly on the
invocation with 0-based index `k` and succeeds elsewhere. -/
def failAt (k : Nat) (e : ε) : Nat → List Char → Option ε :=
  fun i _ => if i = k then some e else none

lemma processLines_fail_at {ε : Type} (decode : List Char → Option ChatStreamChunk)
    (e : ε) (k : Nat) :
    ∀ ps ds, List.Forall₂ (DecodesTo decode) ps ds → (∀ d ∈ ds, d ≠ []) →
      ∀ (acc : List Char) (calls : List (List Char)) m, k = calls.length + m →
      m < ds.length →
      processLines decode (traceCallback (failAt k e)) (ps.map deltaLine ++ [doneLine])
          acc calls
        = (.error (.callbackError e), calls ++ ds.take (m + 1)) := by
  intro ps ds h
  induction h with
  | nil =>
    intro _ _ _ _ _ hm
    exact absurd hm (by simp)
  | cons h1 _ ih =>
    intro hnn acc calls m hk hm
    obtain ⟨hne, hdec⟩ := h1
    rename_i b l₁ l₂ _
    have hb : b ≠ [] := hnn b (by simp)
    simp only [List.map_cons, List.cons_append]
    cases m with
    | zero =>
      have hcb : traceCallback (failAt k e) calls b = (calls ++ [b], some e) := by
        simp [traceCallback, failAt, hk]
      rw [processLines_cons_delta_token_error decode (traceCallback (failAt k e))
        hne hdec hb hcb]
      simp
    | succ m' =>
      have hcb : traceCallback (failAt k e) calls b = (calls ++ [b], none) := by
        simp only [traceCallback, failAt]
        rw [if_neg (by omega)]
      rw [processLines_cons_delta_token decode (traceCallback (failAt k e))
        hne hdec hb hcb]
      rw [ih (fun d hd => hnn d (by simp [hd])) (acc ++ b) (calls ++ [b]) m'
        (by simp; omega) (by simpa using hm)]
      simp

/-- C5: when the per-token callback fails on the k-th non-empty delta,
`ChatStream` aborts at once and returns exactly that callback error —
no accumulated text is surfaced — and the callback was invoked exactly
k times (on the first k deltas, in order). -/
theorem chatStream_callback_error {ε : Type} (decode : List Char → Option ChatStreamChunk)
    (e : ε) (ps ds : List (List Char)) (h : List.Forall₂ (DecodesTo decode) ps ds)
    (hnn : ∀ d ∈ ds, d ≠ []) (k : Nat) (hk : 1 ≤ k) (hlen : k ≤ ds.length) :
    chatStream decode (traceCallback (failAt (k - 1) e)) 200
        (ps.map deltaLine ++ [doneLine]) []
      = (.error (.callbackError e), ds.take k) ∧ (ds.take k).length = k := by
  constructor
  · unfold chatStream
    rw [if_pos rfl,
      processLines_fail_at decode e (k - 1) ps ds h hnn [] [] (k - 1) (by simp) (by omega)]
    have : k - 1 + 1 = k := by omega
    rw [this]
    rfl
  · rw [List.length_take]
    omega

/-- C5 witness: failure on the second of three deltas. -/
theorem chatStream_callback_error_witness :
    chatStream (fun p => some (deltaChunk p)) (traceCallback (failAt 1 ()))
        200 (List.map deltaLine ["a".toList, "b".toList, "c".toList] ++ [doneLine]) []
      = (.error (.callbackError ()), ["a".toList, "b".toList]) := by
  have h := chatStream_callback_error (fun p => some (deltaChunk p)) ()
      ["a".toList, "b".toList, "c".toList] ["a".toList, "b".toList, "c".toList]
      (List.Forall₂.cons ⟨by decide, rfl⟩ (List.Forall₂.cons ⟨by decide, rfl⟩
        (List.Forall₂.cons ⟨by decide, rfl⟩ List.Forall₂.nil)))
      (by decide) 2 (by omega) (by simp)
  rw [h.1]
  rfl

/-! ## Spinner single-fire -/

lemma processLines_preserves {σ ε : Type} (decode : List Char → Option ChatStreamChunk)
    (onToken : σ → List Char → σ × Option ε) (P : σ → Prop)
    (hP : ∀ st tok, P st → P (onToken st tok).1) :
    ∀ (body : List (List Char)) (acc : List Char) (st : σ), P st →
      P (processLines decode onToken body acc st).2 := by
  intro body
  induction body with
  | nil =>
    intro acc st h
    exact h
  | cons line rest ih =>
    intro acc st h
    simp only [processLines]
    split
    · exact ih _ _ h
    · split
      · split
        · exact h
        · split
          · exact h
          · split
            · exact ih _ _ h
            · rename_i choice tail heqc
              split
              · exact ih _ _ h
              · split
                · rename_i heq
                  have h2 := hP st choice.deltaContent h
                  rw [heq] at h2
                  exact h2
                · rename_i heq
                  have h2 := hP st choice.deltaContent h
                  rw [heq] at h2
                  exact ih _ _ h2
      · exact ih _ _ h

/-- The single-fire invariant on the wrapped-callback state: before the
once fires no erase happened, and in any case at most one erase ever
happens. -/
def WInv (w : WrapState σ) : Prop :=
  (w.onceDone = false → w.erases = 0) ∧ w.erases ≤ 1

lemma wrappedCallback_preserves_WInv {σ ε : Type}
    (onToken : σ → List Char → σ × Option ε) (w : WrapState σ) (tok : List Char)
    (h : WInv w) : WInv ((wrappedCallback onToken w tok).1) := by
  obtain ⟨h0, h1⟩ := h
  by_cases hoc : w.onceDone = true
  · simp only [wrappedCallback, if_pos hoc]
    exact ⟨by simp [hoc], h1⟩
  · have hoc' : w.onceDone = false := by simpa using hoc
    have he0 : w.erases = 0 := h0 hoc'
    simp only [wrappedCallback, if_neg hoc]
    cases hsp : w.spinner with
    | none => exact ⟨by simp, by simp [he0]⟩
    | some sp =>
      refine ⟨by simp, ?_⟩
      simp only [he0]
      split <;> simp

lemma wrappedCallback_preserves_fired {σ ε : Type}
    (onToken : σ → List Char → σ × Option ε) (w : WrapState σ) (tok : List Char)
    (h : w.onceDone = true ∧ w.erases = 1) :
    ((wrappedCallback onToken w tok).1).onceDone = true ∧
      ((wrappedCallback onToken w tok).1).erases = 1 := by
  simp only [wrappedCallback]
  rw [if_pos h.1]
  exact ⟨h.1, h.2⟩

lemma processLines_fires {σ ε : Type} (decode : List Char → Option ChatStreamChunk)
    (onToken : σ → List Char → σ × Option ε)
    (hnone : ∀ s t, (onToken s t).2 = none) :
    ∀ ps ds, List.Forall₂ (DecodesTo decode) ps ds → (∃ d ∈ ds, d ≠ []) →
      ∀ (acc : List Char) (st : σ),
      ((processLines decode (wrappedCallback onToken) (ps.map deltaLine ++ [doneLine])
          acc (initialWrapState true st)).2).erases = 1 := by
  intro ps ds h
  induction h with
  | nil =>
    intro hex _ _
    simp at hex
  | cons h1 _ ih =>
    intro hex acc st
    obtain ⟨hne, hdec⟩ := h1
    rename_i b l₁ l₂ _
    simp only [List.map_cons, List.cons_append]
    by_cases hb : b = []
    · subst hb
      rw [processLines_cons_delta_some decode (wrappedCallback onToken) hne hdec,
        if_pos rfl]
      refine ih ?_ acc st
      rcases hex with ⟨d, hd, hdne⟩
      rcases List.mem_cons.mp hd with h | h
      · exact absurd h.symm (by simpa using hdne)
      · exact ⟨d, h, hdne⟩
    · have hcb : wrappedCallback onToken (initialWrapState true st) b
          = (⟨true, some ⟨true⟩, 1, (onToken st b).1⟩, none) := by
        simp [wrappedCallback, initialWrapState, spinnerStop, hnone]
      rw [processLines_cons_delta_token decode (wrappedCallback onToken) hne hdec hb hcb]
      have hfinal := processLines_preserves decode (wrappedCallback onToken)
        (fun w => w.onceDone = true ∧ w.erases = 1)
        (fun w tok hw => wrappedCallback_preserves_fired onToken w tok hw)
        (l₁.map deltaLine ++ [doneLine]) (acc ++ b)
        ⟨true, some ⟨true⟩, 1, (onToken st b).1⟩ ⟨rfl, rfl⟩
      exact hfinal.2

/-- C8: the spinner's stop/erase happens at most once on any stream
(the `sync.Once` guard), and on an interactive (tty) well-formed delta
stream containing at least one non-empty delta it happens exactly once —
the first content delta fires it and every later delta is a no-op for
the indicator. -/
theorem spinner_single_fire {σ ε : Type} (decode : List Char → Option ChatStreamChunk)
    (onToken : σ → List Char → σ × Option ε) (tty : Bool) (status : Nat)
    (body : List (List Char)) (st : σ) (ps ds : List (List Char)) :
    ((chatStreamWithSpinner decode onToken tty status body st).2.erases ≤ 1) ∧
    ((∀ s t, (onToken s t).2 = none) → List.Forall₂ (DecodesTo decode) ps ds →
      (∃ d ∈ ds, d ≠ []) →
      (chatStreamWithSpinner decode onToken true 200
          (ps.map deltaLine ++ [doneLine]) st).2.erases = 1) := by
  constructor
  · unfold chatStreamWithSpinner chatStream
    split
    · have h := processLines_preserves decode (wrappedCallback onToken) WInv
        (fun w tok hw => wrappedCallback_preserves_WInv onToken w tok hw)
        body [] (initialWrapState tty st) ⟨fun _ => rfl, by simp [initialWrapState]⟩
      exact h.2
    · simp [initialWrapState]
  · intro hnone h hex
    unfold chatStreamWithSpinner chatStream
    rw [if_pos rfl]
    exact processLines_fires decode onToken hnone ps ds h hex [] st

/-- C8 witness: one empty and two non-empty deltas on a tty stream
erase the spinner exactly once. -/
theorem spinner_single_fire_witness :
    ((chatStreamWithSpinner (fun p => some (deltaChunk p))
        (fun (s : Unit) (_ : List Char) => (s, (none : Option Unit))) true 200
        (List.map deltaLine ["".toList, "a".toList, "b".toList] ++ [doneLine])
        ()).2.erases ≤ 1) ∧
    ((chatStreamWithSpinner (fun p => some (deltaChunk p))
        (fun (s : Unit) (_ : List Char) => (s, (none : Option Unit))) true 200
        (List.map deltaLine ["".toList, "a".toList, "b".toList] ++ [doneLine])
        ()).2.erases = 1) := by
  have h := spinner_single_fire (fun p => some (deltaChunk p))
      (fun (s : Unit) (_ : List Char) => (s, (none : Option Unit))) true 200
      (List.map deltaLine ["".toList, "a".toList, "b".toList] ++ [doneLine]) ()
      ["".toList, "a".toList, "b".toList] ["".toList, "a".toList, "b".toList]
  refine ⟨h.1, h.2 (fun _ _ => rfl)
    (List.Forall₂.cons ⟨by decide, rfl⟩ (List.Forall₂.cons ⟨by decide, rfl⟩
      (List.Forall₂.cons ⟨by decide, rfl⟩ List.Forall₂.nil)))
    ⟨"a".toList, by simp, by decide⟩⟩

end PromptBuilder
